import Mathlib

/-
Verification development for the streaming multiscale OME-Zarr writer
(lazyflow/utility/io_util/write_ome_zarr.py).

The Python functions are shallowly embedded as executable Lean definitions.
Notes on number representation:
- Scale factors in the source are Python floats of the form 2.0 ** i with
  i <= 20; these are exactly representable in binary floating point, and
  int() of them is exact, so factors are embedded as natural numbers.
- _round_like_scaling_method(a / s) (math.ceil of a float quotient of
  nonnegative integers) is embedded as the ceiling division
  cdiv a s = (a + s - 1) / s on naturals; the lemma
  cdiv_eq_roundLikeScalingMethod proves this equals the mathematical ceiling
  of the exact quotient, which the float computation matches for the integer
  magnitudes produced by shape arithmetic.
- numpy.prod over Python integer lists is embedded as the exact product
  (listProd); the shapes exercised here stay far below the int64 range.
-/

/- Axis-tagged shapes and scalings: ordered association lists, mirroring the
Python OrderedDict values (TaggedShape = OrderedDict[str, int],
OrderedScaling = OrderedDict[str, float]). -/
abbrev TaggedShape := List (String × Nat)

abbrev OrderedScaling := List (String × Nat)

/- SPATIAL_AXES = ["z", "y", "x"] (write_ome_zarr.py line 25). -/
def SPATIAL_AXES : List String := ["z", "y", "x"]

/- numpy.prod of a list of Python ints (exact; empty product is 1). -/
def listProd (l : List Nat) : Nat := l.foldr (· * ·) 1

/- Python max() over the values of a tagged shape (0 for the empty list,
where Python would raise; that branch is unreachable in _get_scalings
because the chunk-volume stop condition fires first on empty shapes). -/
def maxList (l : List Nat) : Nat := l.foldr max 0

/- Ceiling division on naturals: cdiv a s = ceil(a / s) for s > 0. -/
def cdiv (a s : Nat) : Nat := (a + s - 1) / s

/- _round_like_scaling_method (lines 106-111): math.ceil of the (exact)
quotient, stated on rationals. -/
def roundLikeScalingMethod (v : ℚ) : ℤ := ⌈v⌉

/- _scale_tagged_shape (lines 96-103): divide each extent by its axis's
scaling factor and round like the scaling method (ceiling). -/
def scaleTaggedShape (shape : TaggedShape) (scaling : OrderedScaling) : TaggedShape :=
  shape.map fun p =>
    match scaling.lookup p.1 with
    | some f => (p.1, cdiv p.2 f)
    | none => p

/- _reduces_any_axis_to_singleton (lines 87-88):
any(new <= 1 < orig for new, orig in zip(new_shape, original_shape)). -/
def reducesAnyAxisToSingleton (newShape origShape : List Nat) : Bool :=
  (List.zip newShape origShape).any fun p => decide (p.1 ≤ 1) && decide (1 < p.2)

/- _is_less_than_4_chunks (lines 91-93): spatial volume of the new shape
compared against 4 times the (full) chunk volume. -/
def isLessThan4Chunks (newShape : TaggedShape) (chunkShape : List Nat) : Bool :=
  let spatialShape := (newShape.filter fun p => decide (p.1 ∈ SPATIAL_AXES)).map Prod.snd
  decide (listProd spatialShape < 4 * listProd chunkShape)

/- The all-ones scaling built at line 64: ODict([(a, 1.0) for a in keys]). -/
def originalScale (shape : TaggedShape) : OrderedScaling :=
  shape.map fun p => (p.1, 1)

/- The candidate scaling for loop iteration i (lines 70-75): factor
2.0 ** (i + 1) for spatial axes whose original extent exceeds 1, else 1.0. -/
def newScaling (shape : TaggedShape) (i : Nat) : OrderedScaling :=
  shape.map fun p =>
    if p.1 ∈ SPATIAL_AXES ∧ 1 < p.2 then (p.1, 2 ^ (i + 1)) else (p.1, 1)

/- sanity_limit = 20 (line 66). -/
def sanityLimit : Nat := 20

/- The disjunction of the three stop conditions (lines 77-81). Python
truthiness: "min_length and max(...) < min_length" is false when min_length
is None or 0. -/
def stopCondition (shape : TaggedShape) (chunkShape : List Nat) (minLength : Option Nat)
    (newShape : TaggedShape) : Bool :=
  isLessThan4Chunks newShape chunkShape
    || reducesAnyAxisToSingleton (newShape.map Prod.snd) (shape.map Prod.snd)
    || (match minLength with
        | none => false
        | some m => decide (0 < m) && decide (maxList (newShape.map Prod.snd) < m))

/- The body of the "for i in range(sanity_limit)" loop of _get_scalings
(lines 67-83), with the accumulated scalings list threaded through. The
"if i == sanity_limit: raise ValueError(...)" check (lines 68-69) is embedded
faithfully as the Except.error branch. -/
def getScalingsAux (shape : TaggedShape) (chunkShape : List Nat) (minLength : Option Nat) :
    List Nat → List OrderedScaling → Except String (List OrderedScaling)
  | [], scalings => .ok scalings
  | i :: rest, scalings =>
    if i = sanityLimit then
      .error "Too many scales computed"
    else
      let ns := newScaling shape i
      if stopCondition shape chunkShape minLength (scaleTaggedShape shape ns) then
        .ok scalings
      else
        getScalingsAux shape chunkShape minLength rest (scalings ++ [ns])

/- _get_scalings (lines 49-84). The leading length assert (line 63) is
embedded as an error value. -/
def getScalings (shape : TaggedShape) (chunkShape : List Nat) (minLength : Option Nat) :
    Except String (List OrderedScaling) :=
  if chunkShape.length = shape.length then
    getScalingsAux shape chunkShape minLength (List.range sanityLimit) [originalScale shape]
  else
    .error "Chunk shape and tagged shape must have same length"

def shapeC5 : TaggedShape := [("t", 3), ("c", 1), ("z", 1), ("y", 64), ("x", 64)]

def shapeC6 : TaggedShape := [("t", 1), ("c", 2), ("z", 5), ("y", 64), ("x", 64)]

def shapeC7 : TaggedShape := [("t", 1), ("c", 1), ("z", 1), ("y", 8), ("x", 8)]

/- ImageMetadata (write_ome_zarr.py lines 28-32); scale values are embedded
as rationals (the source stores floats, all exact powers of two here). -/
structure ImageMetadata where
  path : String
  scale : List (String × ℚ)
  translation : List (String × ℚ)

/- axis_types (line 187). -/
def axisTypes : List (String × String) :=
  [("t", "time"), ("c", "channel"), ("z", "space"), ("y", "space"), ("x", "space")]

/- axes (line 188): one (name, type) entry per axis tag, in tag order. A key
missing from axis_types (a KeyError in Python) is embedded as none. -/
def omeAxes (axistags : List String) : List (String × Option String) :=
  axistags.map fun a => (a, axisTypes.lookup a)

/- The per-dataset scale vector (line 193):
[image.scale[tag.key] for tag in ilastik_meta["axistags"]]. -/
def datasetScaleVec (axistags : List String) (image : ImageMetadata) : List (Option ℚ) :=
  axistags.map fun a => image.scale.lookup a

/- datasets (lines 189-197): per level, the storage path and the scale
coordinate transformation vector. -/
def omeDatasets (axistags : List String) (images : List ImageMetadata) :
    List (String × List (Option ℚ)) :=
  images.map fun im => (im.path, datasetScaleVec axistags im)

def imageS1 : ImageMetadata :=
  { path := "s1"
    scale := [("t", 1), ("c", 1), ("z", 2), ("y", 2), ("x", 2)]
    translation := [] }

/- A half-open multi-axis ROI: (starts, stops), one coordinate per axis
(current_block_roi in _apply_scaling_method). -/
abbrev Roi := List Nat × List Nat

/- An n-dimensional array: its shape and an index function. Indexing
semantics of numpy basic slicing are expressed through shape and get. -/
structure NDArray where
  shape : List Nat
  get : List Nat → Int

/- The per-axis block start crop (lines 128-130):
(scale - (start % scale)) if start % scale > 0 else 0. -/
def blockStartCrop (start scale : Nat) : Nat :=
  if 0 < start % scale then scale - start % scale else 0

/- block_start_crops (lines 128-130), one crop per axis. -/
def blockStartCrops (starts scaling : List Nat) : List Nat :=
  List.zipWith blockStartCrop starts scaling

/- Length of the numpy slice data[crop::scale] along an axis of extent n:
ceil((n - crop) / scale), 0 when the crop exhausts the axis. -/
def sliceLen (n crop scale : Nat) : Nat := cdiv (n - crop) scale

/- _apply_scaling_method (lines 114-135): crop-and-stride the data
(data[slice(crop, None, scale), ...]) and ceiling-divide the ROI bounds.
Scaling factors arrive as exact powers of two, so int(s) is embedded as the
factor itself, and _round_like_scaling_method(start / scale) as cdiv. -/
def applyScalingMethod (data : NDArray) (roi : Roi) (scaling : List Nat) :
    NDArray × Roi :=
  ({ shape := List.zipWith (fun n cs => sliceLen n cs.1 cs.2) data.shape
        (List.zip (blockStartCrops roi.1 scaling) scaling)
     get := fun v => data.get (List.zipWith (fun cs w => cs.1 + cs.2 * w)
        (List.zip (blockStartCrops roi.1 scaling) scaling) v) },
   (List.zipWith cdiv roi.1 scaling, List.zipWith cdiv roi.2 scaling))

/- lazyflow.roi.roiFromShape: the full-domain ROI of a shape. -/
def roiFromShape (shape : List Nat) : Roi := (List.replicate shape.length 0, shape)

/- Pointwise product, truncated subtraction, and comparisons of coordinate
vectors (equal-length lists; the comparisons are false on a length
mismatch). -/
def vecMul (s w : List Nat) : List Nat := List.zipWith (· * ·) s w

def vecSub (a b : List Nat) : List Nat := List.zipWith (· - ·) a b

def vecLeB : List Nat → List Nat → Bool
  | [], [] => true
  | a :: as, b :: bs => decide (a ≤ b) && vecLeB as bs
  | _, _ => false

def vecLtB : List Nat → List Nat → Bool
  | [], [] => true
  | a :: as, b :: bs => decide (a < b) && vecLtB as bs
  | _, _ => false

/- Membership of a point in a half-open ROI. -/
def inRoiB (roi : Roi) (g : List Nat) : Bool := vecLeB roi.1 g && vecLtB g roi.2

/- All index vectors strictly below a shape, in lexicographic order. -/
def pointsBelow : List Nat → List (List Nat)
  | [] => [[]]
  | n :: ns => (List.range n).flatMap fun i => (pointsBelow ns).map fun v => i :: v

/- The downscaled shape: ceil of each extent divided by its factor. -/
def scaledShape (shape scaling : List Nat) : List Nat := List.zipWith cdiv shape scaling

/- The data the streaming source hands to scale_and_write_block for a block:
the restriction of the full level-0 array to the block ROI. -/
def blockData (A : NDArray) (roi : Roi) : NDArray :=
  { shape := vecSub roi.2 roi.1
    get := fun u => A.get (List.zipWith (· + ·) roi.1 u) }

def dataC4 : NDArray := { shape := [8], get := fun v => (v.headD 0 : Int) }

def dataC10 : NDArray := { shape := [2], get := fun v => (v.headD 0 : Int) }

def arrC1 : NDArray := { shape := [20], get := fun v => (v.headD 0 : Int) }

/- Sum of a list, used as shrink-loop fuel. -/
def sumList (l : List Nat) : Nat := l.foldr (· + ·) 0

/- Halve (ceiling) the first occurrence of the maximum extent. -/
def halveFirstMax (m : Nat) : List Nat → List Nat
  | [] => []
  | x :: xs => if x = m then (x + 1) / 2 :: xs else x :: halveFirstMax m xs

/- While the element count exceeds the budget, halve the largest extent
(explicit fuel keeps the recursion structural). -/
def shrinkToBudget : Nat → List Nat → Nat → List Nat
  | 0, shape, _ => shape
  | fuel + 1, shape, budget =>
    if listProd shape ≤ budget then shape
    else shrinkToBudget fuel (halveFirstMax (maxList shape) shape) budget

/-- Modelled from the spec: determineBlockShape from lazyflow.roi is not in
the sources (only its caller _get_chunk_shape is). Per the spec it chooses
per-axis extents whose product approaches the element budget, shrinking each
axis roughly proportionally, never exceeding the axis's own extent and never
below 1; modelled as repeated ceiling-halving of the largest extent until
the product fits the budget. -/
def determineBlockShape (maxShape : List Nat) (targetElems : Nat) : List Nat :=
  shrinkToBudget (sumList maxShape) maxShape targetElems

/- _get_chunk_shape (lines 35-46): force the t and c extents to 1, then ask
the block-shape heuristic for a 512 KB chunk (512000 bytes / dtype size). -/
def getChunkShape (taggedShape : TaggedShape) (dtypeBytes : Nat) : List Nat :=
  let forced := taggedShape.map fun p => if p.1 = "t" ∨ p.1 = "c" then (p.1, 1) else p
  determineBlockShape (forced.map Prod.snd) (512000 / dtypeBytes)

/- getD on a mapped list, at an in-range index. -/
lemma getD_map_of_lt {α β : Type} (f : α → β) (l : List α) :
    ∀ (j : Nat), j < l.length → ∀ (d : α) (d' : β),
      (l.map f).getD j d' = f (l.getD j d) := by
  induction l with
  | nil => intro j h _ _; simp at h
  | cons a l ih =>
    intro j h d d'
    cases j with
    | zero => rfl
    | succ j => exact ih j (by simpa using h) d d'

/- Any successful run of the _get_scalings loop returns the accumulator
extended by the candidate scalings of the first k loop indices, in order. -/
lemma getScalingsAux_ok_structure (shape : TaggedShape) (chunkShape : List Nat)
    (minLength : Option Nat) (rest : List Nat) :
    ∀ (acc l : List OrderedScaling),
      getScalingsAux shape chunkShape minLength rest acc = .ok l →
      ∃ k, k ≤ rest.length ∧ l = acc ++ (rest.take k).map (newScaling shape) := by
  induction rest with
  | nil =>
    intro acc l h
    refine ⟨0, by simp, ?_⟩
    simp only [getScalingsAux] at h
    cases h
    simp
  | cons i rest ih =>
    intro acc l h
    simp only [getScalingsAux] at h
    by_cases hi : i = sanityLimit
    · simp [hi] at h
    · rw [if_neg hi] at h
      by_cases hstop :
          stopCondition shape chunkShape minLength
            (scaleTaggedShape shape (newScaling shape i)) = true
      · rw [if_pos hstop] at h
        cases h
        exact ⟨0, by simp, by simp⟩
      · rw [if_neg hstop] at h
        obtain ⟨k, hk, hl⟩ := ih _ _ h
        refine ⟨k + 1, by simpa using Nat.succ_le_succ hk, ?_⟩
        simp [hl]

/- A successful _get_scalings result is the original all-ones scale followed
by the candidate scalings for loop indices 0, 1, ..., k-1, with k at most 20. -/
lemma getScalings_ok_structure (shape : TaggedShape) (chunkShape : List Nat)
    (minLength : Option Nat) (l : List OrderedScaling)
    (h : getScalings shape chunkShape minLength = .ok l) :
    ∃ k, k ≤ sanityLimit ∧
      l = originalScale shape :: (List.range k).map (newScaling shape) := by
  unfold getScalings at h
  by_cases hlen : chunkShape.length = shape.length
  · rw [if_pos hlen] at h
    obtain ⟨k, hk, hl⟩ := getScalingsAux_ok_structure shape chunkShape minLength _ _ _ h
    simp only [List.length_range] at hk
    refine ⟨k, hk, ?_⟩
    rw [hl, List.take_range, min_eq_left hk]
    simp
  · rw [if_neg hlen] at h
    cases h

/- The "raise" branch of the loop is unreachable as long as no loop index
equals the sanity limit, which holds for range(sanity_limit). -/
lemma getScalingsAux_ok_of_no_limit (shape : TaggedShape) (chunkShape : List Nat)
    (minLength : Option Nat) (rest : List Nat) (hrest : ∀ i ∈ rest, i ≠ sanityLimit) :
    ∀ acc, ∃ l, getScalingsAux shape chunkShape minLength rest acc = .ok l := by
  induction rest with
  | nil => intro acc; exact ⟨acc, rfl⟩
  | cons i rest ih =>
    intro acc
    have hi : i ≠ sanityLimit := hrest i (by simp)
    simp only [getScalingsAux, if_neg hi]
    by_cases hstop :
        stopCondition shape chunkShape minLength
          (scaleTaggedShape shape (newScaling shape i)) = true
    · exact ⟨acc, by rw [if_pos hstop]⟩
    · rw [if_neg hstop]
      exact ih (fun j hj => hrest j (by simp [hj])) _

/-- Claim C2: the sanity cap of _get_scalings is dead code. The check
"if i == sanity_limit: raise" sits inside "for i in range(sanity_limit)", so
i never reaches the limit: the only error the function can produce is the
length assert, and for the shape {t:1,c:1,z:1,y:1,x:2^25} with all-ones chunk
shape it silently returns 21 levels instead of raising. -/
theorem getScalings_sanity_cap_never_raises :
    (∀ (shape : TaggedShape) (chunkShape : List Nat) (minLength : Option Nat),
      getScalings shape chunkShape minLength
          = .error "Chunk shape and tagged shape must have same length"
      ∨ ∃ l, getScalings shape chunkShape minLength = .ok l)
    ∧ (getScalings [("t", 1), ("c", 1), ("z", 1), ("y", 1), ("x", 2 ^ 25)]
          [1, 1, 1, 1, 1] none).map List.length = .ok 21 := by
  constructor
  · intro shape chunkShape minLength
    unfold getScalings
    by_cases hlen : chunkShape.length = shape.length
    · right
      rw [if_pos hlen]
      exact getScalingsAux_ok_of_no_limit shape chunkShape minLength _
        (fun i hi => by simp only [List.mem_range] at hi; omega) _
    · left
      rw [if_neg hlen]
  · rfl

/-- Claim C3: refuted as stated. For the shape {t:1,c:1,z:1,y:1,x:2^30} with
all-ones chunk shape, _get_scalings returns a list of 21 levels, exceeding
the claimed maximum of 20 (the sanity check that should have prevented this
is unreachable). -/
theorem getScalings_returns_twentyone_levels :
    (getScalings [("t", 1), ("c", 1), ("z", 1), ("y", 1), ("x", 2 ^ 30)]
        [1, 1, 1, 1, 1] none).map List.length = .ok 21 ∧ 20 < 21 :=
  ⟨rfl, by decide⟩

/-- Claim C5: in every list returned by _get_scalings, an axis whose original
extent is 1, and any non-spatial axis (not z, y or x), has scale factor
exactly 1 at every level. -/
theorem scalings_singleton_and_nonspatial_axes_stay_one
    (shape : TaggedShape) (chunkShape : List Nat) (minLength : Option Nat)
    (l : List OrderedScaling) (h : getScalings shape chunkShape minLength = .ok l)
    (sc : OrderedScaling) (hsc : sc ∈ l) (j : Nat) (hj : j < shape.length)
    (hax : (shape.getD j ("", 0)).2 = 1 ∨ (shape.getD j ("", 0)).1 ∉ SPATIAL_AXES) :
    sc.getD j ("", 0) = ((shape.getD j ("", 0)).1, 1) := by
  obtain ⟨k, _, hl⟩ := getScalings_ok_structure shape chunkShape minLength l h
  subst hl
  rcases List.mem_cons.mp hsc with h0 | hmem
  · subst h0
    rw [originalScale, getD_map_of_lt _ shape j hj ("", 0)]
  · obtain ⟨i, _, rfl⟩ := List.mem_map.mp hmem
    rw [newScaling, getD_map_of_lt _ shape j hj ("", 0)]
    by_cases hc : (shape.getD j ("", 0)).1 ∈ SPATIAL_AXES ∧ 1 < (shape.getD j ("", 0)).2
    · exfalso
      rcases hax with h1 | h2
      · omega
      · exact h2 hc.1
    · rw [if_neg hc]

/-- Witness for claim C5 at a concrete planner run: shape
{t:3,c:1,z:1,y:64,x:64}, chunk (1,1,1,16,16) produces two levels, and the
singleton spatial axis z keeps factor 1 at level 1. -/
theorem scalings_singleton_axes_witness :
    getScalings shapeC5 [1, 1, 1, 16, 16] none
        = .ok [originalScale shapeC5, newScaling shapeC5 0]
    ∧ (newScaling shapeC5 0).getD 2 ("", 0) = ("z", 1) := by
  refine ⟨rfl, ?_⟩
  have h := scalings_singleton_and_nonspatial_axes_stay_one shapeC5 [1, 1, 1, 16, 16] none
    [originalScale shapeC5, newScaling shapeC5 0] rfl (newScaling shapeC5 0)
    (by simp) 2 (by decide) (Or.inl rfl)
  simpa [shapeC5] using h

/-- Claim C6: every successful _get_scalings result starts with the all-ones
scaling (level 0), and each appended level i + 1 assigns factor 2^(i+1) to
every spatial axis whose original extent exceeds 1 and factor 1 to all other
axes, so per spatial axis the factors double from each level to the next. -/
theorem scalings_level_structure
    (shape : TaggedShape) (chunkShape : List Nat) (minLength : Option Nat)
    (l : List OrderedScaling) (h : getScalings shape chunkShape minLength = .ok l) :
    l[0]? = some (originalScale shape)
    ∧ (originalScale shape).map Prod.snd = List.replicate shape.length 1
    ∧ ∀ i sc, l[i + 1]? = some sc → ∀ j, j < shape.length →
        sc.getD j ("", 0)
          = ((shape.getD j ("", 0)).1,
             if (shape.getD j ("", 0)).1 ∈ SPATIAL_AXES ∧ 1 < (shape.getD j ("", 0)).2
             then 2 ^ (i + 1) else 1) := by
  obtain ⟨k, _, hl⟩ := getScalings_ok_structure shape chunkShape minLength l h
  subst hl
  refine ⟨by simp, ?_, ?_⟩
  · simp [originalScale, List.map_map, Function.comp_def, List.map_const']
  · intro i sc hsc j hj
    simp only [List.getElem?_cons_succ, List.getElem?_map] at hsc
    rcases hk : (List.range k)[i]? with _ | i'
    · rw [hk] at hsc
      cases hsc
    · rw [hk] at hsc
      have hi' : i' = i := by
        rcases Nat.lt_or_ge i k with hik | hik
        · rw [List.getElem?_range hik] at hk
          cases hk
          rfl
        · rw [List.getElem?_eq_none (by simpa using hik)] at hk
          cases hk
      subst hi'
      cases hsc
      rw [newScaling, getD_map_of_lt _ shape j hj ("", 0)]
      by_cases hc : (shape.getD j ("", 0)).1 ∈ SPATIAL_AXES ∧ 1 < (shape.getD j ("", 0)).2
      · rw [if_pos hc, if_pos hc]
      · rw [if_neg hc, if_neg hc]

/-- Witness for claim C6 at a concrete planner run: shape
{t:1,c:2,z:5,y:64,x:64}, chunk (1,1,2,8,8) produces three levels, and at
level 2 the y axis has factor 2^2 = 4. -/
theorem scalings_level_structure_witness :
    getScalings shapeC6 [1, 1, 2, 8, 8] none
        = .ok [originalScale shapeC6, newScaling shapeC6 0, newScaling shapeC6 1]
    ∧ (newScaling shapeC6 1).getD 3 ("", 0) = ("y", 4) := by
  refine ⟨rfl, ?_⟩
  have h := (scalings_level_structure shapeC6 [1, 1, 2, 8, 8] none
    [originalScale shapeC6, newScaling shapeC6 0, newScaling shapeC6 1] rfl).2.2
    1 (newScaling shapeC6 1) rfl 3 (by decide)
  simpa [shapeC6] using h

/-- Claim C7: for shape {t:1,c:1,z:1,y:8,x:8} and chunk shape (1,1,1,4,4),
the level-1 candidate shape by ceiling division is {t:1,c:1,z:1,y:4,x:4};
its spatial volume 16 is below 4 times the chunk volume (64), so stop
condition (a) fires and _get_scalings returns exactly the one original
all-ones level. -/
theorem planner_concrete_scenario_one :
    scaleTaggedShape shapeC7 (newScaling shapeC7 0)
        = [("t", 1), ("c", 1), ("z", 1), ("y", 4), ("x", 4)]
    ∧ listProd (((scaleTaggedShape shapeC7 (newScaling shapeC7 0)).filter
          fun p => decide (p.1 ∈ SPATIAL_AXES)).map Prod.snd) = 16
    ∧ 4 * listProd [1, 1, 1, 4, 4] = 64
    ∧ isLessThan4Chunks (scaleTaggedShape shapeC7 (newScaling shapeC7 0)) [1, 1, 1, 4, 4]
        = true
    ∧ getScalings shapeC7 [1, 1, 1, 4, 4] none = .ok [originalScale shapeC7] :=
  ⟨rfl, rfl, rfl, rfl, rfl⟩

/-- Claim C8: in the metadata document, dataset i's scale vector has one
entry per axis tag in tag order: entry k is the scale factor looked up under
the name of axes[k], and both the scale vector and the axes list have exactly
the length of the axis tag list. -/
theorem metadata_scale_positional
    (axistags : List String) (images : List ImageMetadata)
    (i k : Nat) (im : ImageMetadata) (a : String)
    (hi : images[i]? = some im) (hk : axistags[k]? = some a) :
    (omeDatasets axistags images)[i]? = some (im.path, datasetScaleVec axistags im)
    ∧ (datasetScaleVec axistags im)[k]? = some (im.scale.lookup a)
    ∧ (omeAxes axistags)[k]? = some (a, axisTypes.lookup a)
    ∧ (datasetScaleVec axistags im).length = axistags.length
    ∧ (omeAxes axistags).length = axistags.length := by
  refine ⟨?_, ?_, ?_, by simp [datasetScaleVec], by simp [omeAxes]⟩
  · simp [omeDatasets, List.getElem?_map, hi]
  · simp [datasetScaleVec, List.getElem?_map, hk]
  · simp [omeAxes, List.getElem?_map, hk]

/-- Witness for claim C8: for the export axis order [t, c, z, y, x] the scale
vector of a dataset has exactly 5 entries, and entry 3 is the factor stored
under the axis name y. -/
theorem metadata_scale_positional_witness :
    (["t", "c", "z", "y", "x"] : List String)[3]? = some "y"
    ∧ [imageS1][0]? = some imageS1
    ∧ (datasetScaleVec ["t", "c", "z", "y", "x"] imageS1).length = 5
    ∧ (datasetScaleVec ["t", "c", "z", "y", "x"] imageS1)[3]?
        = some (imageS1.scale.lookup "y") := by
  have h := metadata_scale_positional ["t", "c", "z", "y", "x"] [imageS1] 0 3 imageS1 "y"
    rfl rfl
  exact ⟨rfl, rfl, h.2.2.2.1, h.2.1⟩

/- cdiv is the ceiling: characterization against multiples of the divisor. -/
lemma cdiv_le_iff (a s w : Nat) (hs : 0 < s) : cdiv a s ≤ w ↔ a ≤ s * w := by
  unfold cdiv
  rw [Nat.div_le_iff_le_mul_add_pred hs]
  generalize s * w = X
  omega

lemma lt_cdiv_iff (b s w : Nat) (hs : 0 < s) : w < cdiv b s ↔ s * w < b := by
  rw [← Nat.not_le, cdiv_le_iff b s w hs, Nat.not_le]

/- The crop moves the block start to the next multiple of the scale: the
first kept sample of the block sits at global position s * ceil(start/s). -/
lemma start_add_crop (start s : Nat) (hs : 0 < s) :
    start + blockStartCrop start s = s * cdiv start s := by
  unfold blockStartCrop
  have hd := Nat.div_add_mod start s
  rcases Nat.eq_zero_or_pos (start % s) with hr | hr
  · rw [if_neg (by omega)]
    have hcd : cdiv start s = start / s := by
      unfold cdiv
      have hq : start + s - 1 = s * (start / s) + (s - 1) := by omega
      rw [hq, Nat.mul_add_div hs, Nat.div_eq_of_lt (show s - 1 < s by omega)]
      omega
    rw [hcd]
    omega
  · rw [if_pos hr]
    have hlt : start % s < s := Nat.mod_lt _ hs
    have hcd : cdiv start s = start / s + 1 := by
      unfold cdiv
      have hq : start + s - 1 = s * (start / s) + (s + start % s - 1) := by omega
      rw [hq, Nat.mul_add_div hs]
      have h1 : (s + start % s - 1) / s = 1 := by
        have he : s + start % s - 1 = s * 1 + (start % s - 1) := by omega
        rw [he, Nat.mul_add_div hs, Nat.div_eq_of_lt (by omega)]
      omega
    rw [hcd, Nat.mul_add]
    omega

/- Per-axis count identity: the number of samples kept from a block equals
the extent of its target ROI. -/
lemma sliceLen_eq_cdiv_sub (start stop s : Nat) (hs : 0 < s) :
    sliceLen (stop - start) (blockStartCrop start s) s
      = cdiv stop s - cdiv start s := by
  unfold sliceLen
  have hcrop := start_add_crop start s hs
  have key : ∀ w, w < cdiv (stop - start - blockStartCrop start s) s
      ↔ w < cdiv stop s - cdiv start s := by
    intro w
    rw [lt_cdiv_iff _ _ _ hs]
    constructor
    · intro h
      have hw : s * (w + cdiv start s) < stop := by
        rw [Nat.mul_add]
        omega
      have := (lt_cdiv_iff stop s (w + cdiv start s) hs).mpr hw
      omega
    · intro h
      have h' : w + cdiv start s < cdiv stop s := by omega
      have := (lt_cdiv_iff stop s (w + cdiv start s) hs).mp h'
      rw [Nat.mul_add] at this
      omega
  have h1 := key (cdiv (stop - start - blockStartCrop start s) s)
  have h2 := key (cdiv stop s - cdiv start s)
  omega

/- The if-form of the crop in the source equals the (s - start mod s) mod s
formula of the spec. -/
lemma blockStartCrop_eq_mod (start s : Nat) (hs : 0 < s) :
    blockStartCrop start s = (s - start % s) % s := by
  unfold blockStartCrop
  have hlt : start % s < s := Nat.mod_lt _ hs
  rcases Nat.eq_zero_or_pos (start % s) with hr | hr
  · rw [if_neg (by omega), hr, Nat.sub_zero, Nat.mod_self]
  · rw [if_pos hr]
    symm
    apply Nat.mod_eq_of_lt
    omega

/- cdiv agrees with _round_like_scaling_method (math.ceil) on the exact
quotient. -/
lemma cdiv_eq_roundLikeScalingMethod (a s : Nat) (hs : 0 < s) :
    (cdiv a s : ℤ) = roundLikeScalingMethod ((a : ℚ) / (s : ℚ)) := by
  unfold roundLikeScalingMethod
  have hsQ : (0 : ℚ) < (s : ℚ) := by exact_mod_cast hs
  have hnn : (0 : ℤ) ≤ ⌈(a : ℚ) / (s : ℚ)⌉ :=
    Int.ceil_nonneg (div_nonneg (by positivity) (le_of_lt hsQ))
  apply le_antisymm
  · have hle : (a : ℚ) / (s : ℚ) ≤ ((⌈(a : ℚ) / (s : ℚ)⌉.toNat : ℚ)) := by
      rw [show ((⌈(a : ℚ) / (s : ℚ)⌉.toNat : ℚ)) = ((⌈(a : ℚ) / (s : ℚ)⌉ : ℤ) : ℚ) by
        exact_mod_cast congrArg Int.cast (Int.toNat_of_nonneg hnn)]
      exact Int.le_ceil _
    rw [div_le_iff₀ hsQ] at hle
    have hle' : a ≤ ⌈(a : ℚ) / (s : ℚ)⌉.toNat * s := by exact_mod_cast hle
    rw [Nat.mul_comm] at hle'
    have h2 : cdiv a s ≤ ⌈(a : ℚ) / (s : ℚ)⌉.toNat :=
      (cdiv_le_iff a s _ hs).mpr hle'
    omega
  · rw [Int.ceil_le]
    have h3 : a ≤ s * cdiv a s := (cdiv_le_iff a s (cdiv a s) hs).mp le_rfl
    rw [Nat.mul_comm] at h3
    rw [div_le_iff₀ hsQ]
    exact_mod_cast h3

lemma vecLeB_cons (a b : Nat) (as bs : List Nat) :
    vecLeB (a :: as) (b :: bs) = (decide (a ≤ b) && vecLeB as bs) := rfl

lemma vecLtB_cons (a b : Nat) (as bs : List Nat) :
    vecLtB (a :: as) (b :: bs) = (decide (a < b) && vecLtB as bs) := rfl

lemma vecMul_cons (s x : Nat) (ss xs : List Nat) :
    vecMul (s :: ss) (x :: xs) = s * x :: vecMul ss xs := rfl

lemma vecSub_cons (a b : Nat) (as bs : List Nat) :
    vecSub (a :: as) (b :: bs) = (a - b) :: vecSub as bs := rfl

lemma blockStartCrops_cons (a s : Nat) (as ss : List Nat) :
    blockStartCrops (a :: as) (s :: ss) = blockStartCrop a s :: blockStartCrops as ss := rfl

lemma vecLeB_length (a : List Nat) : ∀ b, vecLeB a b = true → a.length = b.length := by
  induction a with
  | nil =>
    intro b h
    cases b with
    | nil => rfl
    | cons y ys => simp [vecLeB] at h
  | cons x xs ih =>
    intro b h
    cases b with
    | nil => simp [vecLeB] at h
    | cons y ys =>
      rw [vecLeB_cons, Bool.and_eq_true] at h
      simpa using ih ys h.2

lemma vecLtB_length (a : List Nat) : ∀ b, vecLtB a b = true → a.length = b.length := by
  induction a with
  | nil =>
    intro b h
    cases b with
    | nil => rfl
    | cons y ys => simp [vecLtB] at h
  | cons x xs ih =>
    intro b h
    cases b with
    | nil => simp [vecLtB] at h
    | cons y ys =>
      rw [vecLtB_cons, Bool.and_eq_true] at h
      simpa using ih ys h.2

/- pointsBelow enumerates exactly the points dominated by the shape. -/
lemma mem_pointsBelow_iff (shape : List Nat) :
    ∀ g, g ∈ pointsBelow shape ↔ vecLtB g shape = true := by
  induction shape with
  | nil =>
    intro g
    constructor
    · intro h
      simp only [pointsBelow, List.mem_singleton] at h
      subst h
      rfl
    · intro h
      cases g with
      | nil => simp [pointsBelow]
      | cons x xs => simp [vecLtB] at h
  | cons n ns ih =>
    intro g
    simp only [pointsBelow, List.mem_flatMap, List.mem_map, List.mem_range]
    constructor
    · rintro ⟨i, hi, v, hv, rfl⟩
      rw [vecLtB_cons, Bool.and_eq_true]
      exact ⟨by simpa using hi, (ih v).mp hv⟩
    · intro h
      cases g with
      | nil => simp [vecLtB] at h
      | cons x xs =>
        rw [vecLtB_cons, Bool.and_eq_true, decide_eq_true_eq] at h
        exact ⟨x, h.1, xs, (ih xs).mpr h.2, rfl⟩

/- getD of a zipWith at an in-range index. -/
lemma getD_zipWith_of_lt {α β γ : Type} (f : α → β → γ) (as : List α) :
    ∀ (bs : List β) (j : Nat), j < as.length → j < bs.length →
      ∀ (da : α) (db : β) (d : γ),
        (List.zipWith f as bs).getD j d = f (as.getD j da) (bs.getD j db) := by
  induction as with
  | nil => intro bs j hj _ _ _ _; simp at hj
  | cons a as ih =>
    intro bs j hja hjb da db d
    cases bs with
    | nil => simp at hjb
    | cons b bs =>
      cases j with
      | zero => rfl
      | succ j => exact ih bs j (by simpa using hja) (by simpa using hjb) da db d

/- The crop-and-stride index map, written on separate coordinate lists. -/
lemma zipWith_zip_add_mul (crops : List Nat) :
    ∀ (scaling v : List Nat),
      List.zipWith (fun cs w => cs.1 + cs.2 * w) (List.zip crops scaling) v
        = List.zipWith (· + ·) crops (vecMul scaling v) := by
  induction crops with
  | nil => intro scaling v; simp [vecMul]
  | cons c cs ih =>
    intro scaling v
    cases scaling with
    | nil => simp [vecMul]
    | cons s ss =>
      cases v with
      | nil => simp [vecMul]
      | cons x xs =>
        simp only [List.zip_cons_cons, List.zipWith_cons_cons, vecMul_cons]
        rw [ih ss xs]

/- Transport of the lower ROI bound through ceiling division: the target
start bound holds for w iff the level-0 start bound holds for s * w. -/
lemma vecLeB_cdiv (scaling : List Nat) :
    ∀ (starts w : List Nat), (∀ s ∈ scaling, 0 < s) →
      starts.length = scaling.length → w.length = scaling.length →
      vecLeB (List.zipWith cdiv starts scaling) w = vecLeB starts (vecMul scaling w) := by
  induction scaling with
  | nil =>
    intro starts w _ h1 h2
    simp only [List.length_nil] at h1 h2
    rw [List.length_eq_zero] at h1 h2
    subst h1; subst h2
    rfl
  | cons s ss ih =>
    intro starts w hpos h1 h2
    cases starts with
    | nil => simp at h1
    | cons a as =>
      cases w with
      | nil => simp at h2
      | cons x xs =>
        have hs : 0 < s := hpos s (by simp)
        simp only [List.zipWith_cons_cons, vecMul_cons, vecLeB_cons]
        rw [decide_eq_decide.mpr (cdiv_le_iff a s x hs),
          ih as xs (fun t ht => hpos t (by simp [ht])) (by simpa using h1)
            (by simpa using h2)]

/- Transport of the upper ROI bound through ceiling division. -/
lemma vecLtB_cdiv (scaling : List Nat) :
    ∀ (stops w : List Nat), (∀ s ∈ scaling, 0 < s) →
      stops.length = scaling.length → w.length = scaling.length →
      vecLtB w (List.zipWith cdiv stops scaling) = vecLtB (vecMul scaling w) stops := by
  induction scaling with
  | nil =>
    intro stops w _ h1 h2
    simp only [List.length_nil] at h1 h2
    rw [List.length_eq_zero] at h1 h2
    subst h1; subst h2
    rfl
  | cons s ss ih =>
    intro stops w hpos h1 h2
    cases stops with
    | nil => simp at h1
    | cons b bs =>
      cases w with
      | nil => simp at h2
      | cons x xs =>
        have hs : 0 < s := hpos s (by simp)
        simp only [List.zipWith_cons_cons, vecMul_cons, vecLtB_cons]
        rw [decide_eq_decide.mpr (lt_cdiv_iff b s x hs),
          ih bs xs (fun t ht => hpos t (by simp [ht])) (by simpa using h1)
            (by simpa using h2)]

/- Grid correspondence: a point w lies in a block's target ROI iff the
global sample position s * w lies in the block itself. -/
lemma inRoiB_scaled_iff (starts stops scaling w : List Nat)
    (hpos : ∀ s ∈ scaling, 0 < s)
    (h1 : starts.length = scaling.length) (h2 : stops.length = scaling.length)
    (hw : w.length = scaling.length) :
    inRoiB (List.zipWith cdiv starts scaling, List.zipWith cdiv stops scaling) w
      = inRoiB (starts, stops) (vecMul scaling w) := by
  unfold inRoiB
  rw [vecLeB_cdiv scaling starts w hpos h1 hw, vecLtB_cdiv scaling stops w hpos h2 hw]

/- Index correspondence: within a block whose target ROI contains w, the
cropped-strided local index of w addresses the global sample s * w. -/
lemma crops_index_eq (scaling : List Nat) :
    ∀ (starts w : List Nat), (∀ s ∈ scaling, 0 < s) →
      starts.length = scaling.length → w.length = scaling.length →
      vecLeB (List.zipWith cdiv starts scaling) w = true →
      List.zipWith (· + ·) starts
          (List.zipWith (· + ·) (blockStartCrops starts scaling)
            (vecMul scaling (vecSub w (List.zipWith cdiv starts scaling))))
        = vecMul scaling w := by
  induction scaling with
  | nil =>
    intro starts w _ h1 h2 _
    simp only [List.length_nil] at h1 h2
    rw [List.length_eq_zero] at h1 h2
    subst h1; subst h2
    rfl
  | cons s ss ih =>
    intro starts w hpos h1 h2 hle
    cases starts with
    | nil => simp at h1
    | cons a as =>
      cases w with
      | nil => simp at h2
      | cons x xs =>
        have hs : 0 < s := hpos s (by simp)
        simp only [List.zipWith_cons_cons, blockStartCrops_cons, vecSub_cons,
          vecMul_cons, vecLeB_cons, Bool.and_eq_true, decide_eq_true_eq] at hle ⊢
        congr 1
        · have hq : cdiv a s ≤ x := hle.1
          have hca := start_add_crop a s hs
          have hmul : s * (x - cdiv a s) + s * cdiv a s = s * x := by
            rw [← Nat.mul_add, Nat.sub_add_cancel hq]
          omega
        · exact ih as xs (fun t ht => hpos t (by simp [ht])) (by simpa using h1)
            (by simpa using h2) hle.2

/- With zero starts (the whole-array ROI) the crops vanish and the index map
is plain decimation. -/
lemma zip_crops_zero_get (scaling : List Nat) :
    ∀ (n : Nat) (w : List Nat), scaling.length ≤ n →
      List.zipWith (fun cs x => cs.1 + cs.2 * x)
          (List.zip (blockStartCrops (List.replicate n 0) scaling) scaling) w
        = vecMul scaling w := by
  induction scaling with
  | nil => intro n w _; simp [blockStartCrops, vecMul]
  | cons s ss ih =>
    intro n w hn
    cases n with
    | zero => simp at hn
    | succ n =>
      cases w with
      | nil => simp [vecMul]
      | cons x xs =>
        have hcrop : blockStartCrop 0 s = 0 := by simp [blockStartCrop]
        simp only [List.replicate_succ, blockStartCrops_cons, List.zip_cons_cons,
          List.zipWith_cons_cons, vecMul_cons, hcrop]
        rw [ih n xs (by simpa using hn)]
        simp

/- With zero starts the scaled shape of _apply_scaling_method is the ceiling
shape of the whole domain. -/
lemma whole_scaled_shape (shape : List Nat) :
    ∀ (n : Nat) (scaling : List Nat), shape.length ≤ n →
      List.zipWith (fun m cs => sliceLen m cs.1 cs.2) shape
          (List.zip (blockStartCrops (List.replicate n 0) scaling) scaling)
        = scaledShape shape scaling := by
  induction shape with
  | nil => intro n scaling _; simp [scaledShape]
  | cons m ms ih =>
    intro n scaling hn
    cases scaling with
    | nil => simp [scaledShape, blockStartCrops]
    | cons s ss =>
      cases n with
      | zero => simp at hn
      | succ n =>
        have hcrop : blockStartCrop 0 s = 0 := by simp [blockStartCrop]
        have hss : scaledShape (m :: ms) (s :: ss) = cdiv m s :: scaledShape ms ss := rfl
        simp only [List.replicate_succ, blockStartCrops_cons, List.zip_cons_cons,
          List.zipWith_cons_cons, hcrop, hss]
        rw [ih n ss (by simpa using hn)]
        simp [sliceLen]

/- The scaled data of a block has the extent of its scaled ROI, per axis. -/
lemma scaled_shape_eq (scaling : List Nat) :
    ∀ (starts stops : List Nat), (∀ s ∈ scaling, 0 < s) →
      starts.length = scaling.length → stops.length = scaling.length →
      List.zipWith (fun n cs => sliceLen n cs.1 cs.2) (vecSub stops starts)
          (List.zip (blockStartCrops starts scaling) scaling)
        = vecSub (List.zipWith cdiv stops scaling) (List.zipWith cdiv starts scaling) := by
  induction scaling with
  | nil =>
    intro starts stops _ h1 h2
    simp only [List.length_nil] at h1 h2
    rw [List.length_eq_zero] at h1 h2
    subst h1; subst h2
    rfl
  | cons s ss ih =>
    intro starts stops hpos h1 h2
    cases starts with
    | nil => simp at h1
    | cons a as =>
      cases stops with
      | nil => simp at h2
      | cons b bs =>
        have hs : 0 < s := hpos s (by simp)
        simp only [vecSub_cons, blockStartCrops_cons, List.zip_cons_cons,
          List.zipWith_cons_cons]
        rw [ih as bs (fun t ht => hpos t (by simp [ht])) (by simpa using h1)
          (by simpa using h2)]
        rw [sliceLen_eq_cdiv_sub a b s hs]

/-- Claim C4: per-axis algorithm of _apply_scaling_method. For every axis j
with positive integer factor s: the block start crop equals
(s - start mod s) mod s; the target ROI bounds are ceil(start/s) and
ceil(stop/s), computed exactly as the source's rounding method
(math.ceil of start/scale); and the returned data reads the block's data at
every s-th sample starting from the crop. -/
theorem apply_scaling_per_axis
    (data : NDArray) (starts stops scaling : List Nat)
    (hpos : ∀ s ∈ scaling, 0 < s)
    (h1 : starts.length = scaling.length) (h2 : stops.length = scaling.length)
    (j : Nat) (hj : j < scaling.length) :
    (blockStartCrops starts scaling).getD j 0
        = (scaling.getD j 1 - starts.getD j 0 % scaling.getD j 1) % scaling.getD j 1
    ∧ (applyScalingMethod data (starts, stops) scaling).2.1.getD j 0
        = cdiv (starts.getD j 0) (scaling.getD j 1)
    ∧ (applyScalingMethod data (starts, stops) scaling).2.2.getD j 0
        = cdiv (stops.getD j 0) (scaling.getD j 1)
    ∧ (cdiv (starts.getD j 0) (scaling.getD j 1) : ℤ)
        = roundLikeScalingMethod ((starts.getD j 0 : ℚ) / (scaling.getD j 1 : ℚ))
    ∧ ∀ v : List Nat,
        (applyScalingMethod data (starts, stops) scaling).1.get v
          = data.get (List.zipWith (· + ·) (blockStartCrops starts scaling)
              (vecMul scaling v)) := by
  have hsj : 0 < scaling.getD j 1 := by
    rw [List.getD_eq_getElem scaling 1 hj]
    exact hpos _ (List.getElem_mem hj)
  refine ⟨?_, ?_, ?_, cdiv_eq_roundLikeScalingMethod _ _ hsj, ?_⟩
  · show (List.zipWith blockStartCrop starts scaling).getD j 0 = _
    rw [getD_zipWith_of_lt blockStartCrop starts scaling j (by omega) hj 0 1 0]
    exact blockStartCrop_eq_mod _ _ hsj
  · show (List.zipWith cdiv starts scaling).getD j 0 = _
    exact getD_zipWith_of_lt cdiv starts scaling j (by omega) hj 0 1 0
  · show (List.zipWith cdiv stops scaling).getD j 0 = _
    exact getD_zipWith_of_lt cdiv stops scaling j (by omega) hj 0 1 0
  · intro v
    show data.get (List.zipWith (fun cs w => cs.1 + cs.2 * w)
        (List.zip (blockStartCrops starts scaling) scaling) v) = _
    rw [zipWith_zip_add_mul]

/-- Witness for claim C4 at the spec's concrete scenario: block ROI start 22
with scale 5 gives crop offset 3 and target ROI start ceil(22/5) = 5. -/
theorem apply_scaling_per_axis_witness :
    (∀ s ∈ ([5] : List Nat), 0 < s)
    ∧ blockStartCrops [22] [5] = [3]
    ∧ (applyScalingMethod dataC4 ([22], [30]) [5]).2 = ([5], [6])
    ∧ (blockStartCrops [22] [5]).getD 0 0 = (5 - 22 % 5) % 5 := by
  have h := apply_scaling_per_axis dataC4 [22] [30] [5] (by decide) rfl rfl 0 (by decide)
  refine ⟨by decide, rfl, rfl, ?_⟩
  simpa using h.1

/-- Claim C10: for positive integer factors, matching lengths, start ≤ stop
per axis and block data whose extent per axis is stop - start, the returned
data's extent along every axis equals the returned ROI's extent
ceil(stop/s) - ceil(start/s); in particular a block containing no global
sampling-grid position on some axis yields extent 0 there (empty data and
empty ROI), not an error. -/
theorem apply_scaling_data_roi_consistency
    (data : NDArray) (starts stops scaling : List Nat)
    (hpos : ∀ s ∈ scaling, 0 < s)
    (h1 : starts.length = scaling.length) (h2 : stops.length = scaling.length)
    (hle : vecLeB starts stops = true)
    (hshape : data.shape = vecSub stops starts) :
    (applyScalingMethod data (starts, stops) scaling).1.shape
      = vecSub (applyScalingMethod data (starts, stops) scaling).2.2
          (applyScalingMethod data (starts, stops) scaling).2.1 := by
  show List.zipWith (fun n cs => sliceLen n cs.1 cs.2) data.shape
      (List.zip (blockStartCrops starts scaling) scaling)
    = vecSub (List.zipWith cdiv stops scaling) (List.zipWith cdiv starts scaling)
  rw [hshape]
  exact scaled_shape_eq scaling starts stops hpos h1 h2

/-- Witness for claim C10 at a grid-free block: ROI [3, 5) at scale 5
contains no multiple of 5, so the scaled data is empty ([0]) and the scaled
ROI is the empty interval [1, 1). -/
theorem apply_scaling_data_roi_consistency_witness :
    (∀ s ∈ ([5] : List Nat), 0 < s)
    ∧ vecLeB [3] [5] = true
    ∧ (applyScalingMethod dataC10 ([3], [5]) [5]).2 = ([1], [1])
    ∧ (applyScalingMethod dataC10 ([3], [5]) [5]).1.shape = [0]
    ∧ (applyScalingMethod dataC10 ([3], [5]) [5]).1.shape
        = vecSub (applyScalingMethod dataC10 ([3], [5]) [5]).2.2
            (applyScalingMethod dataC10 ([3], [5]) [5]).2.1 := by
  refine ⟨by decide, by decide, rfl, rfl, ?_⟩
  exact apply_scaling_data_roi_consistency dataC10 [3] [5] [5]
    (by decide) rfl rfl (by decide) rfl

/-- Claim C1: seam-freedom of the block downsampler. For every family of
half-open blocks that partitions the level-0 domain (each domain point lies
in exactly one block) and every scaling with one positive integer factor per
axis: the whole-array downsample has the ceiling shape and is exactly
decimation (the value at w is the level-0 sample at position scale * w);
every point of the downscaled shape lies in exactly one block's target ROI
(no gaps, no overlaps, for arbitrary non-aligned block boundaries); and each
block's returned data, written at its returned target ROI, agrees at every
covered point with the whole-array decimation. -/
theorem block_downsampler_seam_freedom
    (A : NDArray) (scaling : List Nat) (blocks : List Roi)
    (hpos : ∀ s ∈ scaling, 0 < s)
    (hsd : scaling.length = A.shape.length)
    (hblocks : ∀ b ∈ blocks, vecLeB b.1 b.2 = true ∧ vecLeB b.2 A.shape = true)
    (hpart : ∀ g ∈ pointsBelow A.shape, blocks.countP (fun b => inRoiB b g) = 1) :
    ((applyScalingMethod A (roiFromShape A.shape) scaling).1.shape
        = scaledShape A.shape scaling)
    ∧ (∀ w, (applyScalingMethod A (roiFromShape A.shape) scaling).1.get w
        = A.get (vecMul scaling w))
    ∧ (∀ w ∈ pointsBelow (scaledShape A.shape scaling),
        blocks.countP
          (fun b => inRoiB (applyScalingMethod (blockData A b) b scaling).2 w) = 1)
    ∧ ∀ b ∈ blocks, ∀ w ∈ pointsBelow (scaledShape A.shape scaling),
        inRoiB (applyScalingMethod (blockData A b) b scaling).2 w = true →
        (applyScalingMethod (blockData A b) b scaling).1.get
            (vecSub w (applyScalingMethod (blockData A b) b scaling).2.1)
          = (applyScalingMethod A (roiFromShape A.shape) scaling).1.get w := by
  have hwholeget : ∀ w, (applyScalingMethod A (roiFromShape A.shape) scaling).1.get w
      = A.get (vecMul scaling w) := by
    intro w
    show A.get (List.zipWith (fun cs x => cs.1 + cs.2 * x)
        (List.zip (blockStartCrops (List.replicate A.shape.length 0) scaling) scaling) w)
      = _
    rw [zip_crops_zero_get scaling A.shape.length w (le_of_eq hsd)]
  refine ⟨?_, hwholeget, ?_, ?_⟩
  · show List.zipWith (fun m cs => sliceLen m cs.1 cs.2) A.shape
        (List.zip (blockStartCrops (List.replicate A.shape.length 0) scaling) scaling)
      = scaledShape A.shape scaling
    exact whole_scaled_shape A.shape A.shape.length scaling le_rfl
  · intro w hw
    have hwlt := (mem_pointsBelow_iff _ _).mp hw
    have hwlen : w.length = scaling.length := by
      have hl := vecLtB_length w _ hwlt
      rw [hsd]
      simpa [scaledShape, hsd] using hl
    have hgw : vecMul scaling w ∈ pointsBelow A.shape := by
      rw [mem_pointsBelow_iff]
      have hwlt' := hwlt
      rw [show scaledShape A.shape scaling = List.zipWith cdiv A.shape scaling from rfl,
        vecLtB_cdiv scaling A.shape w hpos hsd.symm hwlen] at hwlt'
      exact hwlt'
    rw [← hpart (vecMul scaling w) hgw]
    apply List.countP_congr
    intro b hb
    obtain ⟨hb1, hb2⟩ := hblocks b hb
    have hl12 : b.1.length = b.2.length := vecLeB_length _ _ hb1
    have hl2 : b.2.length = A.shape.length := vecLeB_length _ _ hb2
    have hbs : b.1.length = scaling.length := by omega
    have hbs2 : b.2.length = scaling.length := by omega
    rw [show (applyScalingMethod (blockData A b) b scaling).2
        = (List.zipWith cdiv b.1 scaling, List.zipWith cdiv b.2 scaling) from rfl,
      inRoiB_scaled_iff b.1 b.2 scaling w hpos hbs hbs2 hwlen]
  · intro b hb w hw htarget
    obtain ⟨hb1, hb2⟩ := hblocks b hb
    have hl12 : b.1.length = b.2.length := vecLeB_length _ _ hb1
    have hl2 : b.2.length = A.shape.length := vecLeB_length _ _ hb2
    have hbs : b.1.length = scaling.length := by omega
    have hwlt := (mem_pointsBelow_iff _ _).mp hw
    have hwlen : w.length = scaling.length := by
      have hl := vecLtB_length w _ hwlt
      rw [hsd]
      simpa [scaledShape, hsd] using hl
    have hle : vecLeB (List.zipWith cdiv b.1 scaling) w = true := by
      have ht := htarget
      rw [show (applyScalingMethod (blockData A b) b scaling).2
          = (List.zipWith cdiv b.1 scaling, List.zipWith cdiv b.2 scaling) from rfl] at ht
      unfold inRoiB at ht
      rw [Bool.and_eq_true] at ht
      exact ht.1
    rw [hwholeget w]
    show A.get (List.zipWith (· + ·) b.1
        (List.zipWith (fun cs x => cs.1 + cs.2 * x)
          (List.zip (blockStartCrops b.1 scaling) scaling)
          (vecSub w (List.zipWith cdiv b.1 scaling)))) = _
    rw [zipWith_zip_add_mul, crops_index_eq scaling b.1 w hpos hbs hwlen hle]

/-- Witness for claim C1 at the spec's concrete scenario: two adjacent
blocks [0,10) and [10,20) at scale 2 produce the contiguous target ROIs
[0,5) and [5,10), and every point of the downscaled domain [0,10) lies in
exactly one target ROI. -/
theorem block_downsampler_seam_freedom_witness :
    (∀ s ∈ ([2] : List Nat), 0 < s)
    ∧ (∀ b ∈ [(([0], [10]) : Roi), ([10], [20])],
        vecLeB b.1 b.2 = true ∧ vecLeB b.2 arrC1.shape = true)
    ∧ (∀ g ∈ pointsBelow arrC1.shape,
        ([(([0], [10]) : Roi), ([10], [20])].countP (fun b => inRoiB b g)) = 1)
    ∧ (applyScalingMethod (blockData arrC1 ([0], [10])) ([0], [10]) [2]).2 = ([0], [5])
    ∧ (applyScalingMethod (blockData arrC1 ([10], [20])) ([10], [20]) [2]).2 = ([5], [10])
    ∧ (∀ w ∈ pointsBelow (scaledShape arrC1.shape [2]),
        ([(([0], [10]) : Roi), ([10], [20])].countP
          (fun b => inRoiB (applyScalingMethod (blockData arrC1 b) b [2]).2 w)) = 1) := by
  have h := block_downsampler_seam_freedom arrC1 [2] [([0], [10]), ([10], [20])]
    (by decide) rfl (by decide) (by decide)
  exact ⟨by decide, by decide, by decide, rfl, rfl, h.2.2.1⟩

lemma vecLeB_refl (l : List Nat) : vecLeB l l = true := by
  induction l with
  | nil => rfl
  | cons x xs ih =>
    rw [vecLeB_cons, Bool.and_eq_true]
    exact ⟨by simp, ih⟩

lemma vecLeB_trans (a : List Nat) : ∀ b c, vecLeB a b = true → vecLeB b c = true →
    vecLeB a c = true := by
  induction a with
  | nil =>
    intro b c h1 h2
    cases b with
    | nil =>
      cases c with
      | nil => rfl
      | cons z zs => simp [vecLeB] at h2
    | cons y ys => simp [vecLeB] at h1
  | cons x xs ih =>
    intro b c h1 h2
    cases b with
    | nil => simp [vecLeB] at h1
    | cons y ys =>
      cases c with
      | nil => simp [vecLeB] at h2
      | cons z zs =>
        rw [vecLeB_cons, Bool.and_eq_true, decide_eq_true_eq] at h1 h2 ⊢
        exact ⟨le_trans h1.1 h2.1, ih ys zs h1.2 h2.2⟩

lemma vecLeB_getD (a : List Nat) : ∀ (b : List Nat) (j : Nat) (d : Nat),
    vecLeB a b = true → j < a.length → a.getD j d ≤ b.getD j d := by
  induction a with
  | nil => intro b j d _ hj; simp at hj
  | cons x xs ih =>
    intro b j d h hj
    cases b with
    | nil => simp [vecLeB] at h
    | cons y ys =>
      rw [vecLeB_cons, Bool.and_eq_true, decide_eq_true_eq] at h
      cases j with
      | zero => exact h.1
      | succ j => exact ih ys j d h.2 (by simpa using hj)

lemma halveFirstMax_le (m : Nat) (l : List Nat) : vecLeB (halveFirstMax m l) l = true := by
  induction l with
  | nil => rfl
  | cons y ys ih =>
    simp only [halveFirstMax]
    by_cases hy : y = m
    · rw [if_pos hy, vecLeB_cons, Bool.and_eq_true, decide_eq_true_eq]
      exact ⟨by omega, vecLeB_refl ys⟩
    · rw [if_neg hy, vecLeB_cons, Bool.and_eq_true, decide_eq_true_eq]
      exact ⟨le_rfl, ih⟩

lemma halveFirstMax_pos (m : Nat) : ∀ (l : List Nat), (∀ x ∈ l, 1 ≤ x) →
    ∀ x ∈ halveFirstMax m l, 1 ≤ x := by
  intro l
  induction l with
  | nil => intro _ x hx; simp [halveFirstMax] at hx
  | cons y ys ih =>
    intro h x hx
    simp only [halveFirstMax] at hx
    by_cases hy : y = m
    · rw [if_pos hy] at hx
      rcases List.mem_cons.mp hx with h1 | h2
      · have hy1 := h y (by simp)
        omega
      · exact h x (by simp [h2])
    · rw [if_neg hy] at hx
      rcases List.mem_cons.mp hx with h1 | h2
      · subst h1
        exact h x (by simp)
      · exact ih (fun z hz => h z (by simp [hz])) x h2

lemma shrinkToBudget_le (budget : Nat) : ∀ (fuel : Nat) (l : List Nat),
    vecLeB (shrinkToBudget fuel l budget) l = true := by
  intro fuel
  induction fuel with
  | zero => intro l; exact vecLeB_refl l
  | succ fuel ih =>
    intro l
    simp only [shrinkToBudget]
    by_cases hp : listProd l ≤ budget
    · rw [if_pos hp]
      exact vecLeB_refl l
    · rw [if_neg hp]
      exact vecLeB_trans _ _ _ (ih (halveFirstMax (maxList l) l)) (halveFirstMax_le _ l)

lemma shrinkToBudget_pos (budget : Nat) : ∀ (fuel : Nat) (l : List Nat),
    (∀ x ∈ l, 1 ≤ x) → ∀ x ∈ shrinkToBudget fuel l budget, 1 ≤ x := by
  intro fuel
  induction fuel with
  | zero => intro l h; exact h
  | succ fuel ih =>
    intro l h
    simp only [shrinkToBudget]
    by_cases hp : listProd l ≤ budget
    · rw [if_pos hp]
      exact h
    · rw [if_neg hp]
      exact ih _ (halveFirstMax_pos _ _ h)

/-- Claim C9 (against the spec-modelled block-shape heuristic): the planned
chunk shape has one extent per axis, each at least 1 and at most the
corresponding axis extent of the array, and the time and channel axes always
get extent exactly 1 regardless of the byte budget. -/
theorem chunk_shape_bounds
    (taggedShape : TaggedShape) (dtypeBytes : Nat)
    (hpos : ∀ p ∈ taggedShape, 1 ≤ p.2) :
    (getChunkShape taggedShape dtypeBytes).length = taggedShape.length
    ∧ ∀ j, j < taggedShape.length →
        1 ≤ (getChunkShape taggedShape dtypeBytes).getD j 1
        ∧ (getChunkShape taggedShape dtypeBytes).getD j 1 ≤ (taggedShape.getD j ("", 1)).2
        ∧ ((taggedShape.getD j ("", 1)).1 = "t" ∨ (taggedShape.getD j ("", 1)).1 = "c" →
            (getChunkShape taggedShape dtypeBytes).getD j 1 = 1) := by
  set forced := taggedShape.map
    (fun p => if p.1 = "t" ∨ p.1 = "c" then (p.1, 1) else p) with hforced
  set init := forced.map Prod.snd with hinit
  have hchunk : getChunkShape taggedShape dtypeBytes
      = shrinkToBudget (sumList init) init (512000 / dtypeBytes) := rfl
  have hleB : vecLeB (getChunkShape taggedShape dtypeBytes) init = true := by
    rw [hchunk]
    exact shrinkToBudget_le _ _ _
  have hlen : (getChunkShape taggedShape dtypeBytes).length = init.length :=
    vecLeB_length _ _ hleB
  have hlent : init.length = taggedShape.length := by simp [hinit, hforced]
  have hposinit : ∀ x ∈ init, 1 ≤ x := by
    intro x hx
    simp only [hinit, hforced, List.mem_map] at hx
    obtain ⟨p, hp, rfl⟩ := hx
    obtain ⟨a, ha, rfl⟩ := hp
    by_cases hc : a.1 = "t" ∨ a.1 = "c"
    · rw [if_pos hc]
    · rw [if_neg hc]
      exact hpos a ha
  have hposres : ∀ x ∈ getChunkShape taggedShape dtypeBytes, 1 ≤ x := by
    rw [hchunk]
    exact shrinkToBudget_pos _ _ _ hposinit
  refine ⟨by omega, ?_⟩
  intro j hj
  have hjres : j < (getChunkShape taggedShape dtypeBytes).length := by omega
  have hjf : j < forced.length := by simp [hforced]; omega
  have h1 : 1 ≤ (getChunkShape taggedShape dtypeBytes).getD j 1 := by
    rw [List.getD_eq_getElem _ 1 hjres]
    exact hposres _ (List.getElem_mem hjres)
  have hmem : taggedShape.getD j ("", 1) ∈ taggedShape := by
    rw [List.getD_eq_getElem _ _ hj]
    exact List.getElem_mem hj
  have hq2 : 1 ≤ (taggedShape.getD j ("", 1)).2 := hpos _ hmem
  have hinitgetD : init.getD j 1
      = (if (taggedShape.getD j ("", 1)).1 = "t" ∨ (taggedShape.getD j ("", 1)).1 = "c"
         then 1 else (taggedShape.getD j ("", 1)).2) := by
    rw [hinit, getD_map_of_lt Prod.snd forced j hjf ("", 1),
      hforced, getD_map_of_lt _ taggedShape j hj ("", 1)]
    by_cases hc : (taggedShape.getD j ("", 1)).1 = "t" ∨ (taggedShape.getD j ("", 1)).1 = "c"
    · rw [if_pos hc, if_pos hc]
    · rw [if_neg hc, if_neg hc]
  have hle2 : (getChunkShape taggedShape dtypeBytes).getD j 1 ≤ init.getD j 1 :=
    vecLeB_getD _ init j 1 hleB hjres
  refine ⟨h1, ?_, ?_⟩
  · by_cases hc : (taggedShape.getD j ("", 1)).1 = "t" ∨ (taggedShape.getD j ("", 1)).1 = "c"
    · rw [hinitgetD, if_pos hc] at hle2
      omega
    · rw [hinitgetD, if_neg hc] at hle2
      exact hle2
  · intro hc
    rw [hinitgetD, if_pos hc] at hle2
    omega

/-- Witness for claim C9 at a concrete source: shape
{t:3,c:2,z:5,y:100,x:100}, 4-byte dtype; the chunk shape has 5 extents and
the time axis gets extent 1. -/
theorem chunk_shape_bounds_witness :
    (∀ p ∈ ([("t", 3), ("c", 2), ("z", 5), ("y", 100), ("x", 100)] : TaggedShape), 1 ≤ p.2)
    ∧ (getChunkShape [("t", 3), ("c", 2), ("z", 5), ("y", 100), ("x", 100)] 4).length = 5
    ∧ (getChunkShape [("t", 3), ("c", 2), ("z", 5), ("y", 100), ("x", 100)] 4).getD 0 1
        = 1 := by
  have h := chunk_shape_bounds [("t", 3), ("c", 2), ("z", 5), ("y", 100), ("x", 100)] 4
    (by decide)
  refine ⟨by decide, by simpa using h.1, ?_⟩
  exact (h.2 0 (by decide)).2.2 (Or.inl rfl)

